import Mathlib

/-!
Verification development for the Zenkai-POML pipeline (`zenkai_poml.py`).

Texts are modelled as `List Char`. Python dictionaries with string keys are
modelled as association lists. Machine strings carry no overflow concerns.
The external library boundaries (`json.loads`, `ET.fromstring`, the optional
POML SDK, and the filesystem) are modelled as explicit inputs: a fallible
call becomes an `Except`/`Option` value, mirroring the try/except structure
of the source.
-/

/-- Association list standing for the parser's `self.variables` dict. -/
abbrev Scope := List (List Char × List Char)

/-- Python whitespace for `str.strip` and the regex class `\s`
(ASCII fragment: space, tab, newline, carriage return, vertical tab, form feed). -/
def isSpc (c : Char) : Bool :=
  c = ' ' || c = '\t' || c = '\n' || c = '\r' || c = '\x0b' || c = '\x0c'

/-- `str.strip()`: drop leading and trailing whitespace. -/
def stripChars (l : List Char) : List Char :=
  ((l.dropWhile isSpc).reverse.dropWhile isSpc).reverse

/-- `dict.get` on the variables dict. -/
def lookupScope : Scope → List Char → Option (List Char)
  | [], _ => none
  | (k, v) :: t, n => if k = n then some v else lookupScope t n

/-- `dict[key] = value`: overwrite in place or append. -/
def insertScope : Scope → List Char → List Char → Scope
  | [], k, v => [(k, v)]
  | (k', v') :: t, k, v => if k' = k then (k, v) :: t else (k', v') :: insertScope t k v

/-- Character test used when scanning for the closing braces of `\x7b\x7b ... \x7d\x7d`. -/
def notRB (c : Char) : Bool := c ≠ '}'

/-- Locate the body of a placeholder match of the regex
`\x7b\x7b\s*([^\x7d]+)\s*\x7d\x7d` immediately after an opening `\x7b\x7b`:
the body is the maximal run of non-`\x7d` characters, which must be nonempty and
be followed by `\x7d\x7d`.  Returns the body and the text after the match. -/
def splitContent (l : List Char) : Option (List Char × List Char) :=
  let ct := l.takeWhile notRB
  let d := l.dropWhile notRB
  if ct = [] then none
  else if d.head? = some '}' ∧ d.tail.head? = some '}' then some (ct, d.tail.tail)
  else none

/-- The `replace_var` callback of `_substitute_variables`: the matched group,
whitespace-stripped, is looked up; a hit is replaced by the value and a miss by
the stripped name rewrapped in double braces (`f"\x7b\x7b\x7b\x7b\x7bvar_name\x7d\x7d\x7d\x7d\x7d"`). -/
def replaceVar (σ : Scope) (ct : List Char) : List Char :=
  let n := stripChars ct
  match lookupScope σ n with
  | some v => v
  | none => '{' :: '{' :: (n ++ ['}', '}'])

/-- Fuelled left-to-right scan of `re.sub(r"..." , replace_var, text)` for
the placeholder regex.  The fuel only serves structural recursion; it is
always called with fuel at least the text length. -/
def substAux (σ : Scope) : Nat → List Char → List Char
  | 0, cs => cs
  | _ + 1, [] => []
  | f + 1, c :: cs =>
    if c = '{' ∧ cs.head? = some '{' then
      match splitContent cs.tail with
      | some (ct, rest') => replaceVar σ ct ++ substAux σ f rest'
      | none => '{' :: substAux σ f cs
    else c :: substAux σ f cs

/-- `POMLParser._substitute_variables` (lines 467-473). -/
def substChars (σ : Scope) (cs : List Char) : List Char :=
  substAux σ cs.length cs

/-- The variable names matched by the scan of `_substitute_variables`, in
order.  The control flow of the scan never depends on the scope, so the
matched names are a function of the text alone. -/
def namesAux : Nat → List Char → List (List Char)
  | 0, _ => []
  | _ + 1, [] => []
  | f + 1, c :: cs =>
    if c = '{' ∧ cs.head? = some '{' then
      match splitContent cs.tail with
      | some (ct, rest') => stripChars ct :: namesAux f rest'
      | none => namesAux f cs
    else namesAux f cs

/-- Names of all placeholders occurring in a text. -/
def namesOf (cs : List Char) : List (List Char) :=
  namesAux cs.length cs

/-! ## Markup normalizer (`_preprocess_poml`, lines 193-204) -/

/-- `str.startswith`. -/
def startsWithChars : List Char → List Char → Bool
  | _, [] => true
  | [], _ :: _ => false
  | c :: l, d :: p => c = d && startsWithChars l p

/-- The regex class `\w` (ASCII fragment). -/
def isWordChar (c : Char) : Bool :=
  ('a' ≤ c && c ≤ 'z') || ('A' ≤ c && c ≤ 'Z') || ('0' ≤ c && c ≤ '9') || c = '_'

/-- Character test used when scanning for `>`. -/
def notGT (c : Char) : Bool := c ≠ '>'

/-- Match of the regex `<(\w+[^>]*)/>` right after a `<`: the run up to the
first `>` must start with a word character and end with `/`; the group is the
run without the trailing `/`. -/
def mSelf (cs : List Char) : Option (List Char × List Char) :=
  match cs.dropWhile notGT with
  | '>' :: rest =>
    let run := cs.takeWhile notGT
    match run with
    | [] => none
    | a :: _ =>
      if isWordChar a ∧ run.getLast? = some '/' then some (run.dropLast, rest) else none
  | _ => none

/-- Fuelled scan of `re.sub(r"<(\w+[^>]*)/>", r"<\1></\1>", text)`:
the replacement duplicates the whole group (name and attributes) into the
closing tag. -/
def selfCloseAux : Nat → List Char → List Char
  | 0, cs => cs
  | _ + 1, [] => []
  | f + 1, c :: cs =>
    if c = '<' then
      match mSelf cs with
      | some (g, rest') => ('<' :: g) ++ ("></".toList ++ g ++ ['>']) ++ selfCloseAux f rest'
      | none => '<' :: selfCloseAux f cs
    else c :: selfCloseAux f cs

/-- Self-closing-tag rewrite pass. -/
def selfCloseSub (cs : List Char) : List Char :=
  selfCloseAux cs.length cs

/-- `POMLParser._preprocess_poml`: wrap in `<poml>` unless the stripped text
already starts with it, then expand self-closing tags. -/
def preprocessPoml (t : List Char) : List Char :=
  let t :=
    if startsWithChars (stripChars t) ("<poml>".toList) then t
    else "<poml>".toList ++ t ++ "</poml>".toList
  selfCloseSub t

/-! ## Optional-dependency registry (lines 26-69) and the Excel loader -/

/-- `DEPENDENCIES_AVAILABLE`: exactly the six keys assigned at import time.
Each flag records whether the corresponding import succeeded. -/
structure Deps where
  poml : Bool
  pandas : Bool
  pillow : Bool
  pypdf2 : Bool
  requests : Bool
  jsonschema : Bool

/-- `DEPENDENCIES_AVAILABLE.get(key, False)`.  No assignment in the module
ever stores an `openpyxl` key, so that lookup falls through to the default. -/
def depsGet (cfg : Deps) (k : String) : Bool :=
  if k = "poml" then cfg.poml
  else if k = "pandas" then cfg.pandas
  else if k = "pillow" then cfg.pillow
  else if k = "pypdf2" then cfg.pypdf2
  else if k = "requests" then cfg.requests
  else if k = "jsonschema" then cfg.jsonschema
  else false

/-- The degradation string returned by `_load_excel_file` when the
`openpyxl` capability is not registered. -/
def excelUnavailableMsg : List Char :=
  "Excel processing requires openpyxl. Install with: pip install openpyxl".toList

/-- Pipe-joined rendering with a dash separator, shared by the table
and spreadsheet loaders. -/
def renderSheetRows (rows : List (List (List Char))) : List Char :=
  match rows with
  | [] => "Empty Excel file".toList
  | r0 :: rest =>
    let h := List.intercalate (" | ".toList) r0
    List.intercalate ("\n".toList)
      (h :: List.replicate h.length '-' :: rest.map (List.intercalate (" | ".toList)))

/-- `POMLParser._load_excel_file` (lines 365-393).  The file contents are
supplied as oracles: `pandasOut` stands for `pd.read_excel(...).to_string(index=False)`
and `sheetRows` for the cell matrix `openpyxl` would read. -/
def loadExcelFile (cfg : Deps) (pandasOut : List Char)
    (sheetRows : List (List (List Char))) : List Char :=
  if depsGet cfg "openpyxl" then
    if depsGet cfg "pandas" then pandasOut
    else renderSheetRows sheetRows
  else excelUnavailableMsg

/-! ## Markup document tree (the result of `ET.fromstring`) -/

/-- An element tree node: tag, attributes, direct text, children. -/
inductive Xml : Type where
  | elem (tag : List Char) (attrs : List (List Char × List Char))
      (text : Option (List Char)) (children : List Xml)

def Xml.tag : Xml → List Char
  | .elem t _ _ _ => t

def Xml.attrs : Xml → List (List Char × List Char)
  | .elem _ a _ _ => a

def Xml.text : Xml → Option (List Char)
  | .elem _ _ t _ => t

def Xml.children : Xml → List Xml
  | .elem _ _ _ c => c

/-- `element.get(key, default)`. -/
def attrGet (a : List (List Char × List Char)) (k d : List Char) : List Char :=
  match lookupScope a k with
  | some v => v
  | none => d

/-- `element.get(key)` (default `None`). -/
def attrGetOpt (a : List (List Char × List Char)) (k : List Char) : Option (List Char) :=
  lookupScope a k

/-- `element.find(tag)`: first direct child with the given tag. -/
def findChild (e : Xml) (t : List Char) : Option Xml :=
  e.children.find? (fun c => c.tag = t)

/-- `element.findall(tag)`: all direct children with the given tag. -/
def findAll (e : Xml) (t : List Char) : List Xml :=
  e.children.filter (fun c => c.tag = t)

/-- `str.lower` on one ASCII character. -/
def lowerChar (c : Char) : Char :=
  if 'A' ≤ c ∧ c ≤ 'Z' then Char.ofNat (c.toNat + 32) else c

/-- `str.lower` (ASCII fragment). -/
def lowerStr (t : List Char) : List Char :=
  t.map lowerChar

/-- `element.text or ""`. -/
def textOr (t : Option (List Char)) : List Char :=
  match t with
  | some x => x
  | none => []

/-- Python truthiness of `element.text` (`None` and `""` are falsy). -/
def truthyText (t : Option (List Char)) : Bool :=
  match t with
  | some x => x ≠ []
  | none => false

/-! ## Prompt model (the accumulator built by `_parse_with_fallback`) -/

structure ExampleIO where
  input : List Char
  output : List Char
deriving DecidableEq

structure DocInfo where
  src : List Char
  title : List Char
  content : List Char
deriving DecidableEq

structure TableInfo where
  title : List Char
  src : List Char
  headers : List (List Char)
  rows : List (List (List Char))
  content : List Char
deriving DecidableEq

structure ImgInfo where
  src : List Char
  alt : List Char
  title : List Char
deriving DecidableEq

structure RawElem where
  tag : List Char
  text : List Char
  attributes : List (List Char × List Char)
  childTags : List (List Char)
deriving DecidableEq

/-- The `parsed_data` dictionary. -/
structure ParsedData where
  error : Option (List Char) := none
  role : List Char := []
  task : List Char := []
  output_format : List Char := []
  examples : List ExampleIO := []
  documents : List DocInfo := []
  tables : List TableInfo := []
  images : List ImgInfo := []
  varsDict : Scope := []
  sdk_used : List Char := []
  raw_elements : List RawElem := []
deriving DecidableEq

/-- Filesystem and external-content-loader boundary: `os.path.exists`
together with `_load_table_from_file` / `_load_document_from_file`.
The loaders never raise; failures come back as descriptive strings. -/
structure Fs where
  pathExists : List Char → Bool
  loadTable : List Char → List Char
  loadDoc : List Char → List Char

/-- A filesystem with no readable paths (the `src`-less element case). -/
def fsNone : Fs :=
  { pathExists := fun _ => false, loadTable := fun _ => [], loadDoc := fun _ => [] }

/-- `POMLParser._process_example` (lines 258-276). -/
def processExample (σ : Scope) (e : Xml) : Option ExampleIO :=
  let step := fun (ex : ExampleIO) (child : Xml) =>
    let ctag := lowerStr child.tag
    let ctext := substChars σ (stripChars (textOr child.text))
    if ctag = "input".toList then { ex with input := ctext }
    else if ctag = "output".toList ∨ ctag = "o".toList then { ex with output := ctext }
    else ex
  let ex := e.children.foldl step ⟨[], []⟩
  let ex :=
    if ex.input = [] ∧ ex.output = [] ∧ truthyText e.text then
      { ex with input := substChars σ (stripChars (textOr e.text)) }
    else ex
  if ex.input = [] ∧ ex.output = [] then none else some ex

/-- `POMLParser._process_table` (lines 278-322).  Note that the header and
cell texts are taken verbatim from the tree (`th.text or ''`, `td.text or ''`). -/
def processTable (fs : Fs) (e : Xml) : TableInfo :=
  let title := attrGet e.attrs ("title".toList) ("Table".toList)
  let src := attrGet e.attrs ("src".toList) []
  if src ≠ [] ∧ fs.pathExists src then
    { title := title, src := src, headers := [], rows := [], content := fs.loadTable src }
  else
    let headers :=
      match findChild e ("thead".toList) with
      | some th =>
        match findChild th ("tr".toList) with
        | some hr => (findAll hr ("th".toList)).map (fun x => textOr x.text)
        | none => []
      | none => []
    let rows :=
      match findChild e ("tbody".toList) with
      | some tb => (findAll tb ("tr".toList)).map
          (fun r => (findAll r ("td".toList)).map (fun d => textOr d.text))
      | none => []
    let content :=
      if headers ≠ [] ∨ rows ≠ [] then
        let lines :=
          (if headers ≠ [] then
            let h := List.intercalate (" | ".toList) headers
            [h, List.replicate h.length '-']
           else []) ++ rows.map (List.intercalate (" | ".toList))
        List.intercalate ("\n".toList) lines
      else []
    { title := title, src := src, headers := headers, rows := rows, content := content }

/-- `POMLParser._process_document` (lines 395-410): the inline text is stored
verbatim; only an existing `src` path replaces it with loaded content. -/
def processDocument (fs : Fs) (e : Xml) : DocInfo :=
  let src := attrGet e.attrs ("src".toList) []
  let title := attrGet e.attrs ("title".toList) ("Document".toList)
  let content := if src ≠ [] ∧ fs.pathExists src then fs.loadDoc src else textOr e.text
  { src := src, title := title, content := content }

/-- `POMLParser._process_element` (lines 206-256): dispatch on the lowercased
tag, threading the mutable `self.variables` scope explicitly. -/
def processElement (fs : Fs) (st : Scope × ParsedData) (e : Xml) : Scope × ParsedData :=
  let σ := st.1
  let pd := st.2
  let tag := lowerStr e.tag
  let text := substChars σ (textOr e.text)
  let res :=
    if tag = "role".toList then (σ, { pd with role := stripChars text })
    else if tag = "task".toList then (σ, { pd with task := stripChars text })
    else if tag = "output-format".toList ∨ tag = "output_format".toList then
      (σ, { pd with output_format := stripChars text })
    else if tag = "example".toList then
      (σ, match processExample σ e with
          | some ex => { pd with examples := pd.examples ++ [ex] }
          | none => pd)
    else if tag = "document".toList then
      (σ, { pd with documents := pd.documents ++ [processDocument fs e] })
    else if tag = "table".toList then
      (σ, { pd with tables := pd.tables ++ [processTable fs e] })
    else if tag = "img".toList ∨ tag = "image".toList then
      (σ, { pd with images := pd.images ++
            [{ src := attrGet e.attrs ("src".toList) [],
               alt := attrGet e.attrs ("alt".toList) [],
               title := attrGet e.attrs ("title".toList) ("Image".toList) }] })
    else if tag = "let".toList then
      match attrGetOpt e.attrs ("name".toList) with
      | some nm =>
        (insertScope σ nm (substChars σ (attrGet e.attrs ("value".toList) (stripChars text))), pd)
      | none => (σ, pd)
    else (σ, pd)
  (res.1, { res.2 with raw_elements := res.2.raw_elements ++
      [{ tag := tag, text := text, attributes := e.attrs,
         childTags := e.children.map Xml.tag }] })

/-- The loop `for element in root: self._process_element(element, parsed_data)`. -/
def processElements (fs : Fs) (st : Scope × ParsedData) (es : List Xml) : Scope × ParsedData :=
  es.foldl (processElement fs) st

/-- The generic fallback prompt model returned when `ET.fromstring` raises
(lines 178-191). -/
def errorParsedData (e : List Char) : ParsedData :=
  { error := some ("POML parsing error: ".toList ++ e),
    role := "Assistant".toList, task := "Help the user".toList,
    output_format := [], examples := [], documents := [], tables := [], images := [],
    varsDict := [], sdk_used := "error".toList, raw_elements := [] }

/-- `POMLParser._parse_with_fallback` (lines 149-191).  The outcome of
`ET.fromstring(cleaned_poml)` is supplied as an `Except`: `error` stands
for a raised `ParseError`.  The `variables` entry of the success dictionary
aliases `self.variables`, so it observes the final scope. -/
def parseFallback (fs : Fs) (xmlRes : Except (List Char) Xml) (σ0 : Scope) :
    Scope × ParsedData :=
  match xmlRes with
  | .error e => (σ0, errorParsedData e)
  | .ok root =>
    let st := processElements fs (σ0, { sdk_used := "fallback".toList }) root.children
    (st.1, { st.2 with varsDict := st.1 })

/-- `POMLParser.parse` (lines 80-95): try the official SDK when its import
succeeded, falling back to the custom parser on any SDK failure.  The SDK
outcome is supplied as an `Except` standing for `_parse_with_official_sdk`. -/
def parsePoml (cfg : Deps) (officialRes : Except (List Char) ParsedData) (fs : Fs)
    (xmlRes : Except (List Char) Xml) (ctx : Scope) : Scope × ParsedData :=
  if cfg.poml then
    match officialRes with
    | .ok d => (ctx, d)
    | .error _ => parseFallback fs xmlRes ctx
  else parseFallback fs xmlRes ctx

/-! ## Renderer (`POMLParser.render`, lines 475-533) -/

/-- Decimal rendering of the example counter. -/
def natStr (n : Nat) : List Char :=
  (Nat.repr n).toList

/-- The body of the loop `for i, example in enumerate(examples, 1)`:
an example with both sides renders a three-line block, an input-only example a
single line, and an output-only example nothing; the counter advances in every
iteration. -/
def exampleParts (i : Nat) : List ExampleIO → List (List Char)
  | [] => []
  | ex :: rest =>
    (if ex.input ≠ [] ∧ ex.output ≠ [] then
      ["Example ".toList ++ natStr i ++ ":".toList,
       "Input: ".toList ++ ex.input,
       "Output: ".toList ++ ex.output]
     else if ex.input ≠ [] then
      ["Example ".toList ++ natStr i ++ ": ".toList ++ ex.input]
     else []) ++ exampleParts (i + 1) rest

/-- The ordered `parts` list built by `render` before joining. -/
def renderParts (pd : ParsedData) (style : List Char) : List (List Char) :=
  (if pd.role ≠ [] then
    [if style = "optimized".toList then "Role: ".toList ++ pd.role else pd.role]
   else []) ++
  (if pd.task ≠ [] then
    [if style = "optimized".toList then "Task: ".toList ++ pd.task else pd.task]
   else []) ++
  (if pd.examples ≠ [] then
    (if style = "optimized".toList then ["Examples:".toList] else []) ++
      exampleParts 1 pd.examples
   else []) ++
  (pd.documents.flatMap fun d =>
    if d.content ≠ [] then
      ["Document - ".toList ++ d.title ++ ":".toList, d.content]
    else []) ++
  (pd.tables.flatMap fun t =>
    if t.content ≠ [] then
      ["Table - ".toList ++ t.title ++ ":".toList, t.content]
    else []) ++
  (pd.images.flatMap fun im =>
    if im.alt ≠ [] then
      ["Image - ".toList ++ im.title ++ ": ".toList ++ im.alt]
    else []) ++
  (if pd.output_format ≠ [] then
    [if style = "optimized".toList then
      "Output Format: ".toList ++ pd.output_format
     else pd.output_format]
   else [])

/-- Debug-style numbering `f"[\x7bi\x7d] \x7bpart\x7d"`. -/
def numberParts (i : Nat) : List (List Char) → List (List Char)
  | [] => []
  | p :: rest => ("[".toList ++ natStr i ++ "] ".toList ++ p) :: numberParts (i + 1) rest

/-- `POMLParser.render`. -/
def renderPrompt (pd : ParsedData) (style : List Char) : List Char :=
  let parts := renderParts pd style
  if style = "debug".toList then
    "\n\n=== DEBUG MODE ===\n".toList ++ List.intercalate ("\n\n".toList) (numberParts 1 parts)
  else
    List.intercalate ("\n\n".toList) parts

/-! ## Pipeline entry point (`ZenkaiPOMLProcessor.process_poml`, lines 572-632) -/

/-- `POMLParser._validate_json_context` (lines 444-465).  The outcome of
`json.loads(variables_json)` is supplied as an `Except` standing for a
possible `JSONDecodeError`; the optional jsonschema pass validates against a
schema accepting every object, so it never rejects. -/
def validateJsonContext (jsonRes : Except (List Char) Scope) :
    Bool × Scope × List Char :=
  match jsonRes with
  | .ok d => (true, d, "Valid JSON".toList)
  | .error e => (false, [], "Invalid JSON: ".toList ++ e)

/-- The metadata dictionary serialized by `process_poml`; keys absent in a
given branch are modelled as `none`/default. -/
structure Meta where
  error : Option (List Char) := none
  mode : List Char := []
  dependencies : Option Deps := none
  sdk_used : Option (List Char) := none
  examplesCount : Nat := 0
  documentsCount : Nat := 0
  tablesCount : Nat := 0
  imagesCount : Nat := 0
  rolePresent : Bool := false
  taskPresent : Bool := false
  outputFormatPresent : Bool := false
  variablesUsed : List (List Char) := []
  promptLength : Nat := 0

/-- `ZenkaiPOMLProcessor.process_poml`: validate the variables JSON, parse,
branch on a parser-reported error, render, and truncate. -/
def processPomlRun (cfg : Deps) (fs : Fs) (jsonRes : Except (List Char) Scope)
    (officialRes : Except (List Char) ParsedData) (xmlRes : Except (List Char) Xml)
    (mode : List Char) (maxLength : Nat) : List Char × Meta :=
  let v := validateJsonContext jsonRes
  if v.1 = false then
    ("JSON Variables Error: ".toList ++ v.2.2 ++ "\n\nFallback prompt active.".toList,
     { error := some v.2.2, mode := mode })
  else
    let pd := (parsePoml cfg officialRes fs xmlRes v.2.1).2
    match pd.error with
    | some err =>
      ("POML Error: ".toList ++ err ++ "\n\nFallback: ".toList ++ pd.role ++
         " - ".toList ++ pd.task,
       { error := some err, mode := mode, dependencies := some cfg })
    | none =>
      let r := renderPrompt pd mode
      let r := if 0 < maxLength ∧ maxLength < r.length then r.take maxLength ++ "...".toList else r
      (r, { mode := mode, dependencies := some cfg, sdk_used := some pd.sdk_used,
            examplesCount := pd.examples.length, documentsCount := pd.documents.length,
            tablesCount := pd.tables.length, imagesCount := pd.images.length,
            rolePresent := pd.role ≠ [], taskPresent := pd.task ≠ [],
            outputFormatPresent := pd.output_format ≠ [],
            variablesUsed := pd.varsDict.map Prod.fst, promptLength := r.length })

/-! ## Concrete fixtures used in closed statements -/

/-- The dependency configuration with every optional import failed. -/
def depsNone : Deps := ⟨false, false, false, false, false, false⟩

/-- A `<let name=... value=.../>` element. -/
def letElem (nm v : List Char) : Xml :=
  Xml.elem ("let".toList) [("name".toList, nm), ("value".toList, v)] none []

/-- A `<task>` element whose text is a single placeholder for `nm`. -/
def taskRefElem (nm : List Char) : Xml :=
  Xml.elem ("task".toList) [] (some ('{' :: '{' :: (nm ++ ['}', '}']))) []

/-- A prompt model holding one output-only example and nothing else. -/
def outputOnlyPd : ParsedData :=
  { examples := [{ input := [], output := "z".toList }] }

/-- A `<table>` element with one header cell and one data row cell, both
holding a placeholder. -/
def tableHeaderPh : Xml :=
  Xml.elem ("table".toList) [] none
    [Xml.elem ("thead".toList) [] none
      [Xml.elem ("tr".toList) [] none
        [Xml.elem ("th".toList) [] (some "\x7b\x7bx\x7d\x7d".toList) []]],
     Xml.elem ("tbody".toList) [] none
      [Xml.elem ("tr".toList) [] none
        [Xml.elem ("td".toList) [] (some "\x7b\x7bx\x7d\x7d".toList) []]]]

/-- A `<document>` element with inline placeholder text and no `src`. -/
def docInlinePh : Xml :=
  Xml.elem ("document".toList) [] (some "\x7b\x7bx\x7d\x7d".toList) []

/-- A root document carrying the two fixtures above. -/
def pomlRootPh : Xml :=
  Xml.elem ("poml".toList) [] none [tableHeaderPh, docInlinePh]

/-- The scope binding x to 5. -/
def xScope : Scope := [("x".toList, "5".toList)]

/-! ## Lemmas about the placeholder scanner -/

theorem notRB_eq_true {c : Char} : notRB c = true ↔ c ≠ '}' := by
  simp [notRB]

theorem isSpc_ne_rb {c : Char} (h : isSpc c = true) : c ≠ '}' := by
  rcases Bool.or_eq_true_iff.mp h with h | h
  · rcases Bool.or_eq_true_iff.mp h with h | h
    · rcases Bool.or_eq_true_iff.mp h with h | h
      · rcases Bool.or_eq_true_iff.mp h with h | h
        · rcases Bool.or_eq_true_iff.mp h with h | h <;>
            · simp only [decide_eq_true_eq] at h; subst h; decide
        · simp only [decide_eq_true_eq] at h; subst h; decide
      · simp only [decide_eq_true_eq] at h; subst h; decide
    · simp only [decide_eq_true_eq] at h; subst h; decide
  · simp only [decide_eq_true_eq] at h; subst h; decide

theorem splitContent_intro {ct rest : List Char} (h1 : ct ≠ [])
    (h2 : ∀ c ∈ ct, c ≠ '}') :
    splitContent (ct ++ '}' :: '}' :: rest) = some (ct, rest) := by
  have hpos : ∀ c ∈ ct, notRB c = true := fun c hc => notRB_eq_true.mpr (h2 c hc)
  have htw : (ct ++ '}' :: '}' :: rest).takeWhile notRB = ct := by
    rw [List.takeWhile_append_of_pos hpos,
      List.takeWhile_cons_of_neg (by decide), List.append_nil]
  have hdw : (ct ++ '}' :: '}' :: rest).dropWhile notRB = '}' :: '}' :: rest := by
    rw [List.dropWhile_append_of_pos hpos, List.dropWhile_cons_of_neg (by decide)]
  unfold splitContent
  rw [htw, hdw, if_neg h1, if_pos ⟨rfl, rfl⟩]
  rfl

theorem splitContent_elim {l ct rest : List Char}
    (h : splitContent l = some (ct, rest)) :
    l = ct ++ '}' :: '}' :: rest ∧ ct ≠ [] ∧ ∀ c ∈ ct, c ≠ '}' := by
  unfold splitContent at h
  by_cases h1 : l.takeWhile notRB = []
  · rw [if_pos h1] at h; cases h
  · rw [if_neg h1] at h
    by_cases h2 : (l.dropWhile notRB).head? = some '}' ∧
        (l.dropWhile notRB).tail.head? = some '}'
    · rw [if_pos h2] at h
      injection h with h
      injection h with hct hrest
      obtain ⟨ha, hb⟩ := h2
      have hd : l.dropWhile notRB = '}' :: '}' :: rest := by
        rcases hdw : l.dropWhile notRB with _ | ⟨a, d'⟩
        · rw [hdw] at ha; cases ha
        · rw [hdw] at ha hb hrest
          simp only [List.head?_cons, Option.some.injEq] at ha
          rcases d' with _ | ⟨b, d''⟩
          · simp at hb
          · simp only [List.tail_cons, List.head?_cons, Option.some.injEq] at hb
            simp only [List.tail_cons] at hrest
            rw [ha, hb, hrest]
      refine ⟨?_, ?_, ?_⟩
      · rw [← hct, ← hd]; exact (List.takeWhile_append_dropWhile notRB l).symm
      · rw [← hct]; exact h1
      · intro c hc
        rw [← hct] at hc
        exact notRB_eq_true.mp (List.mem_takeWhile_imp hc)
    · rw [if_neg h2] at h; cases h

theorem splitContent_length {l ct rest : List Char}
    (h : splitContent l = some (ct, rest)) : rest.length + 3 ≤ l.length := by
  obtain ⟨hl, hct, -⟩ := splitContent_elim h
  subst hl
  rcases ct with _ | ⟨a, t⟩
  · exact absurd rfl hct
  · simp [List.length_append, List.length_cons]

/-- Text starting with a closing brace never carries a placeholder match. -/
theorem splitContent_rb (x : List Char) : splitContent ('}' :: x) = none := by
  unfold splitContent
  rw [List.takeWhile_cons_of_neg (by decide)]
  simp

/-- A placeholder match survives prepending a non-brace-closing character:
contrapositive direction used to push `none` through a leading `{`. -/
theorem splitContent_cons_none {c : Char} {x : List Char} (hc : c ≠ '}')
    (h : splitContent (c :: x) = none) : splitContent x = none := by
  rcases hs : splitContent x with _ | ⟨ct, rest⟩
  · rfl
  · obtain ⟨hx, hct, hmem⟩ := splitContent_elim hs
    subst hx
    have : splitContent (c :: (ct ++ '}' :: '}' :: rest)) = some (c :: ct, rest) := by
      have := @splitContent_intro (c :: ct) rest (by simp)
        (by intro d hd; rcases List.mem_cons.mp hd with h | h; · subst h; exact hc
            · exact hmem d h)
      simpa using this
    rw [h] at this; cases this

theorem substAux_cons (σ : Scope) (f : Nat) (c : Char) (cs : List Char) :
    substAux σ (f + 1) (c :: cs) =
      if c = '{' ∧ cs.head? = some '{' then
        match splitContent cs.tail with
        | some (ct, rest') => replaceVar σ ct ++ substAux σ f rest'
        | none => '{' :: substAux σ f cs
      else c :: substAux σ f cs := rfl

theorem substAux_cons_no {c : Char} {cs : List Char} (σ : Scope) (f : Nat)
    (h : ¬(c = '{' ∧ cs.head? = some '{')) :
    substAux σ (f + 1) (c :: cs) = c :: substAux σ f cs := by
  rw [substAux_cons, if_neg h]

theorem substAux_two_some {rest ct rest' : List Char} (σ : Scope) (f : Nat)
    (h : splitContent rest = some (ct, rest')) :
    substAux σ (f + 1) ('{' :: '{' :: rest) = replaceVar σ ct ++ substAux σ f rest' := by
  rw [substAux_cons, if_pos ⟨rfl, rfl⟩]
  simp only [List.tail_cons, h]

theorem substAux_two_none {rest : List Char} (σ : Scope) (f : Nat)
    (h : splitContent rest = none) :
    substAux σ (f + 1) ('{' :: '{' :: rest) = '{' :: substAux σ f ('{' :: rest) := by
  rw [substAux_cons, if_pos ⟨rfl, rfl⟩]
  simp only [List.tail_cons, h]

theorem substAux_eq_of_le (σ : Scope) :
    ∀ f cs, List.length cs ≤ f → substAux σ f cs = substAux σ cs.length cs := by
  intro f
  induction f using Nat.strong_induction_on with
  | _ f ih =>
    match f with
    | 0 =>
      intro cs hle
      have : cs = [] := List.eq_nil_of_length_eq_zero (Nat.le_zero.mp hle)
      subst this; rfl
    | f' + 1 =>
      intro cs hle
      match cs with
      | [] => rfl
      | c :: cs' =>
        simp only [List.length_cons] at hle
        have hle' : cs'.length ≤ f' := Nat.le_of_succ_le_succ hle
        by_cases h : c = '{' ∧ cs'.head? = some '{'
        · obtain ⟨hc, hh⟩ := h
          subst hc
          rcases cs' with _ | ⟨c2, t⟩
          · simp at hh
          · simp only [List.head?_cons, Option.some.injEq] at hh
            subst hh
            simp only [List.length_cons] at hle' ⊢
            cases hsp : splitContent t with
            | none =>
              rw [substAux_two_none σ f' hsp, substAux_two_none σ (t.length + 1) hsp]
              have h1 : substAux σ f' ('{' :: t) = substAux σ ('{' :: t).length ('{' :: t) :=
                ih f' (Nat.lt_succ_self f') _ hle'
              have h2 : substAux σ (t.length + 1) ('{' :: t) =
                  substAux σ ('{' :: t).length ('{' :: t) := by rfl
              rw [h1, h2]
            | some p =>
              obtain ⟨ct, rest'⟩ := p
              rw [substAux_two_some σ f' hsp, substAux_two_some σ (t.length + 1) hsp]
              have hlen : rest'.length + 3 ≤ t.length := splitContent_length hsp
              have h1 : substAux σ f' rest' = substAux σ rest'.length rest' :=
                ih f' (Nat.lt_succ_self f') _ (by omega)
              have h2 : substAux σ (t.length + 1) rest' = substAux σ rest'.length rest' :=
                ih (t.length + 1) (by omega) _ (by omega)
              rw [h1, h2]
        · simp only [List.length_cons]
          rw [substAux_cons_no σ f' h, substAux_cons_no σ cs'.length h]
          rw [ih f' (Nat.lt_succ_self f') _ hle']

theorem substChars_nil (σ : Scope) : substChars σ [] = [] := rfl

theorem substChars_cons_no {c : Char} {cs : List Char} (σ : Scope)
    (h : ¬(c = '{' ∧ cs.head? = some '{')) :
    substChars σ (c :: cs) = c :: substChars σ cs := by
  unfold substChars
  rw [List.length_cons, substAux_cons_no σ cs.length h]

theorem substChars_two_some {rest ct rest' : List Char} (σ : Scope)
    (h : splitContent rest = some (ct, rest')) :
    substChars σ ('{' :: '{' :: rest) = replaceVar σ ct ++ substChars σ rest' := by
  unfold substChars
  rw [List.length_cons, List.length_cons, substAux_two_some σ (rest.length + 1) h]
  have hlen : rest'.length + 3 ≤ rest.length := splitContent_length h
  rw [substAux_eq_of_le σ (rest.length + 1) rest' (by omega)]

theorem substChars_two_none {rest : List Char} (σ : Scope)
    (h : splitContent rest = none) :
    substChars σ ('{' :: '{' :: rest) = '{' :: substChars σ ('{' :: rest) := by
  unfold substChars
  rw [List.length_cons, List.length_cons, substAux_two_none σ (rest.length + 1) h]

theorem namesAux_cons (f : Nat) (c : Char) (cs : List Char) :
    namesAux (f + 1) (c :: cs) =
      if c = '{' ∧ cs.head? = some '{' then
        match splitContent cs.tail with
        | some (ct, rest') => stripChars ct :: namesAux f rest'
        | none => namesAux f cs
      else namesAux f cs := rfl

theorem namesAux_cons_no {c : Char} {cs : List Char} (f : Nat)
    (h : ¬(c = '{' ∧ cs.head? = some '{')) :
    namesAux (f + 1) (c :: cs) = namesAux f cs := by
  rw [namesAux_cons, if_neg h]

theorem namesAux_two_some {rest ct rest' : List Char} (f : Nat)
    (h : splitContent rest = some (ct, rest')) :
    namesAux (f + 1) ('{' :: '{' :: rest) = stripChars ct :: namesAux f rest' := by
  rw [namesAux_cons, if_pos ⟨rfl, rfl⟩]
  simp only [List.tail_cons, h]

theorem namesAux_two_none {rest : List Char} (f : Nat)
    (h : splitContent rest = none) :
    namesAux (f + 1) ('{' :: '{' :: rest) = namesAux f ('{' :: rest) := by
  rw [namesAux_cons, if_pos ⟨rfl, rfl⟩]
  simp only [List.tail_cons, h]

theorem namesAux_eq_of_le :
    ∀ f cs, List.length cs ≤ f → namesAux f cs = namesAux cs.length cs := by
  intro f
  induction f using Nat.strong_induction_on with
  | _ f ih =>
    match f with
    | 0 =>
      intro cs hle
      have : cs = [] := List.eq_nil_of_length_eq_zero (Nat.le_zero.mp hle)
      subst this; rfl
    | f' + 1 =>
      intro cs hle
      match cs with
      | [] => rfl
      | c :: cs' =>
        simp only [List.length_cons] at hle
        have hle' : cs'.length ≤ f' := Nat.le_of_succ_le_succ hle
        by_cases h : c = '{' ∧ cs'.head? = some '{'
        · obtain ⟨hc, hh⟩ := h
          subst hc
          rcases cs' with _ | ⟨c2, t⟩
          · simp at hh
          · simp only [List.head?_cons, Option.some.injEq] at hh
            subst hh
            simp only [List.length_cons] at hle' ⊢
            cases hsp : splitContent t with
            | none =>
              rw [namesAux_two_none f' hsp, namesAux_two_none (t.length + 1) hsp]
              have h1 : namesAux f' ('{' :: t) = namesAux ('{' :: t).length ('{' :: t) :=
                ih f' (Nat.lt_succ_self f') _ hle'
              rw [h1]; rfl
            | some p =>
              obtain ⟨ct, rest'⟩ := p
              rw [namesAux_two_some f' hsp, namesAux_two_some (t.length + 1) hsp]
              have hlen : rest'.length + 3 ≤ t.length := splitContent_length hsp
              have h1 : namesAux f' rest' = namesAux rest'.length rest' :=
                ih f' (Nat.lt_succ_self f') _ (by omega)
              have h2 : namesAux (t.length + 1) rest' = namesAux rest'.length rest' :=
                ih (t.length + 1) (by omega) _ (by omega)
              rw [h1, h2]
        · simp only [List.length_cons]
          rw [namesAux_cons_no f' h, namesAux_cons_no cs'.length h]
          rw [ih f' (Nat.lt_succ_self f') _ hle']

theorem namesOf_nil : namesOf [] = [] := rfl

theorem namesOf_cons_no {c : Char} {cs : List Char}
    (h : ¬(c = '{' ∧ cs.head? = some '{')) :
    namesOf (c :: cs) = namesOf cs := by
  unfold namesOf
  rw [List.length_cons, namesAux_cons_no cs.length h]

theorem namesOf_two_some {rest ct rest' : List Char}
    (h : splitContent rest = some (ct, rest')) :
    namesOf ('{' :: '{' :: rest) = stripChars ct :: namesOf rest' := by
  unfold namesOf
  rw [List.length_cons, List.length_cons, namesAux_two_some (rest.length + 1) h]
  have hlen : rest'.length + 3 ≤ rest.length := splitContent_length h
  rw [namesAux_eq_of_le (rest.length + 1) rest' (by omega)]

theorem namesOf_two_none {rest : List Char}
    (h : splitContent rest = none) :
    namesOf ('{' :: '{' :: rest) = namesOf ('{' :: rest) := by
  unfold namesOf
  rw [List.length_cons, List.length_cons, namesAux_two_none (rest.length + 1) h]

/-! ## Lemmas about `str.strip` -/

theorem dw_head_false {p : Char → Bool} {l : List Char} {a : Char}
    (h : (l.dropWhile p).head? = some a) : p a = false := by
  induction l with
  | nil => cases h
  | cons c t ih =>
    by_cases hc : p c
    · rw [List.dropWhile_cons_of_pos hc] at h; exact ih h
    · rw [List.dropWhile_cons_of_neg hc] at h
      simp only [List.head?_cons, Option.some.injEq] at h
      subst h
      exact Bool.eq_false_iff.mpr hc

theorem dw_self_of_head {p : Char → Bool} {l : List Char} {a : Char}
    (h : l.head? = some a) (hp : p a = false) : l.dropWhile p = l := by
  cases l with
  | nil => cases h
  | cons c t =>
    simp only [List.head?_cons, Option.some.injEq] at h
    subst h
    exact List.dropWhile_cons_of_neg (by simp [hp])

theorem dw_eq_self_head {p : Char → Bool} {l : List Char} {a : Char}
    (h : l.dropWhile p = l) (ha : l.head? = some a) : p a = false := by
  cases l with
  | nil => cases ha
  | cons c t =>
    simp only [List.head?_cons, Option.some.injEq] at ha
    by_cases hp : p c
    · rw [List.dropWhile_cons_of_pos hp] at h
      have hlen := (List.dropWhile_sublist (l := t) p).length_le
      rw [h] at hlen
      simp at hlen
    · rw [← ha]; exact Bool.eq_false_iff.mpr hp

theorem dw_idem {p : Char → Bool} (l : List Char) :
    (l.dropWhile p).dropWhile p = l.dropWhile p := by
  rcases hh : (l.dropWhile p).head? with _ | a
  · rw [List.head?_eq_none_iff.mp hh]; rfl
  · exact dw_self_of_head hh (dw_head_false hh)

theorem dw_len_eq {p : Char → Bool} {l : List Char}
    (h : (l.dropWhile p).length = l.length) : l.dropWhile p = l := by
  cases l with
  | nil => rfl
  | cons c t =>
    by_cases hp : p c
    · rw [List.dropWhile_cons_of_pos hp] at h ⊢
      exfalso
      have hlen := (List.dropWhile_sublist (l := t) p).length_le
      rw [List.length_cons] at h
      omega
    · exact List.dropWhile_cons_of_neg hp

theorem dw_nil_of_all {p : Char → Bool} {l : List Char}
    (h : ∀ c ∈ l, p c = true) : l.dropWhile p = [] := by
  induction l with
  | nil => rfl
  | cons c t ih =>
    rw [List.dropWhile_cons_of_pos (h c (by simp))]
    exact ih (fun d hd => h d (by simp [hd]))

theorem stripChars_nil : stripChars [] = [] := rfl

theorem stripChars_subset {c : Char} {l : List Char} (h : c ∈ stripChars l) : c ∈ l := by
  unfold stripChars at h
  rw [List.mem_reverse] at h
  have h1 := (List.dropWhile_sublist (l := (l.dropWhile isSpc).reverse) isSpc).subset h
  rw [List.mem_reverse] at h1
  exact (List.dropWhile_sublist (l := l) isSpc).subset h1

theorem stripChars_noop {l : List Char}
    (h : ∀ a, l.head? = some a → isSpc a = false)
    (h' : ∀ b, l.getLast? = some b → isSpc b = false) : stripChars l = l := by
  cases l with
  | nil => rfl
  | cons c t =>
    unfold stripChars
    have e1 : (c :: t).dropWhile isSpc = c :: t :=
      dw_self_of_head (l := c :: t) (a := c) rfl (h c rfl)
    rw [e1]
    rcases hg : (c :: t).getLast? with _ | b
    · simp at hg
    · have e2 : (c :: t).reverse.dropWhile isSpc = (c :: t).reverse :=
        dw_self_of_head (l := (c :: t).reverse) (a := b)
          (by rw [List.head?_reverse]; exact hg) (h' b hg)
      rw [e2, List.reverse_reverse]

theorem stripChars_decompose {n : List Char} (h : stripChars n = n) :
    n.dropWhile isSpc = n ∧ n.reverse.dropWhile isSpc = n.reverse := by
  have hlen1 : (n.dropWhile isSpc).length ≤ n.length :=
    (List.dropWhile_sublist isSpc).length_le
  have hlen2 : ((n.dropWhile isSpc).reverse.dropWhile isSpc).length ≤
      (n.dropWhile isSpc).length := by
    have := (List.dropWhile_sublist (l := (n.dropWhile isSpc).reverse) isSpc).length_le
    simpa using this
  have hy : (stripChars n).length = n.length := by rw [h]
  unfold stripChars at hy
  rw [List.length_reverse] at hy
  have hd1 : n.dropWhile isSpc = n := dw_len_eq (by omega)
  refine ⟨hd1, ?_⟩
  have : ((n.dropWhile isSpc).reverse.dropWhile isSpc) = (n.dropWhile isSpc).reverse :=
    dw_len_eq (by rw [List.length_reverse]; omega)
  rw [hd1] at this
  exact this

theorem stripChars_idem (l : List Char) : stripChars (stripChars l) = stripChars l := by
  rcases hy : stripChars l with _ | ⟨a, y'⟩
  · rfl
  · apply stripChars_noop
    · intro a' ha'
      unfold stripChars at hy
      rw [← hy] at ha'
      rw [List.head?_reverse] at ha'
      have hd2 := ha'
      rcases hsuf : ((l.dropWhile isSpc).reverse.dropWhile isSpc) with _ | ⟨z, d2'⟩
      · rw [hsuf] at hd2; simp at hd2
      · obtain ⟨t, ht⟩ := List.dropWhile_suffix (l := (l.dropWhile isSpc).reverse) isSpc
        rw [hsuf] at ht hd2
        have : (l.dropWhile isSpc).reverse.getLast? = some a' := by
          rw [← ht, List.getLast?_append]
          rw [hd2]
          rfl
        rw [List.getLast?_reverse] at this
        exact dw_head_false this
    · intro b hb
      unfold stripChars at hy
      rw [← hy] at hb
      rw [List.getLast?_reverse] at hb
      exact dw_head_false hb

theorem stripChars_pad {w1 w2 n : List Char}
    (h1 : ∀ c ∈ w1, isSpc c = true) (h2 : ∀ c ∈ w2, isSpc c = true)
    (hn : stripChars n = n) : stripChars (w1 ++ n ++ w2) = n := by
  rcases n with _ | ⟨a, n'⟩
  · unfold stripChars
    rw [List.append_nil]
    have hall : ∀ c ∈ w1 ++ w2, isSpc c = true := by
      intro c hc
      rcases List.mem_append.mp hc with h | h
      · exact h1 c h
      · exact h2 c h
    rw [dw_nil_of_all hall]
    rfl
  · obtain ⟨hd1, hd2⟩ := stripChars_decompose hn
    have hhead : isSpc a = false := dw_eq_self_head hd1 rfl
    unfold stripChars
    rw [List.append_assoc, List.dropWhile_append_of_pos h1]
    have e1 : List.dropWhile isSpc (a :: (n' ++ w2)) = a :: (n' ++ w2) :=
      dw_self_of_head (l := a :: (n' ++ w2)) (a := a) rfl hhead
    rw [List.cons_append, e1, ← List.cons_append, List.reverse_append]
    rw [List.dropWhile_append_of_pos (by intro c hc; exact h2 c (List.mem_reverse.mp hc))]
    rw [hd2, List.reverse_reverse]

/-! ## Structural lemmas about the substitution scan -/

/-- A text without closing braces is left untouched by substitution. -/
theorem substChars_no_rb (σ : Scope) : ∀ w, (∀ c ∈ w, c ≠ '}') → substChars σ w = w := by
  intro w
  induction w with
  | nil => intro _; rfl
  | cons c w' ih =>
    intro h
    by_cases hm : c = '{' ∧ w'.head? = some '{'
    · obtain ⟨hc, hh⟩ := hm
      subst hc
      rcases w' with _ | ⟨c2, t⟩
      · cases hh
      · simp only [List.head?_cons, Option.some.injEq] at hh
        subst hh
        have hnone : splitContent t = none := by
          rcases hs : splitContent t with _ | ⟨ct, rest⟩
          · rfl
          · obtain ⟨ht, -, -⟩ := splitContent_elim hs
            exact absurd rfl (h '}' (by rw [ht]; simp))
        rw [substChars_two_none σ hnone,
          ih (fun d hd => h d (List.mem_cons_of_mem _ hd))]
    · rw [substChars_cons_no σ hm,
        ih (fun d hd => h d (List.mem_cons_of_mem _ hd))]

/-- No placeholder closes inside `r ++ \x7d :: s` before the lone closing brace
when `s` does not begin with a second one. -/
theorem splitContent_across {r s : List Char} (h3 : ∀ c ∈ r, c ≠ '}')
    (hs : s.head? ≠ some '}') : splitContent (r ++ '}' :: s) = none := by
  have hpos : ∀ c ∈ r, notRB c = true := fun c hc => notRB_eq_true.mpr (h3 c hc)
  have htw : (r ++ '}' :: s).takeWhile notRB = r := by
    rw [List.takeWhile_append_of_pos hpos,
      List.takeWhile_cons_of_neg (by decide), List.append_nil]
  have hdw : (r ++ '}' :: s).dropWhile notRB = '}' :: s := by
    rw [List.dropWhile_append_of_pos hpos, List.dropWhile_cons_of_neg (by decide)]
  unfold splitContent
  rw [htw, hdw]
  by_cases h0 : r = []
  · rw [if_pos h0]
  · rw [if_neg h0, if_neg (by rintro ⟨-, hb⟩; simp only [List.tail_cons] at hb; exact hs hb)]

/-- When no placeholder closes in `w`, a prepended opening brace passes
through the scan, and contributes no matched name. -/
theorem substChars_push {σ : Scope} {w : List Char} (h : splitContent w = none) :
    substChars σ ('{' :: w) = '{' :: substChars σ w := by
  rcases w with _ | ⟨d, w'⟩
  · rfl
  · by_cases hd : d = '{'
    · subst hd
      exact substChars_two_none σ (splitContent_cons_none (by decide) h)
    · rw [substChars_cons_no σ (by
        rintro ⟨-, hh⟩
        simp only [List.head?_cons, Option.some.injEq] at hh
        exact hd hh)]

theorem namesOf_push {w : List Char} (h : splitContent w = none) :
    namesOf ('{' :: w) = namesOf w := by
  rcases w with _ | ⟨d, w'⟩
  · rfl
  · by_cases hd : d = '{'
    · subst hd
      exact namesOf_two_none (splitContent_cons_none (by decide) h)
    · rw [namesOf_cons_no (by
        rintro ⟨-, hh⟩
        simp only [List.head?_cons, Option.some.injEq] at hh
        exact hd hh)]

/-- Scanning across a lone closing brace: the prefix before it is emitted
verbatim and the names all come from the suffix. -/
theorem substChars_across_rb (σ : Scope) : ∀ r s, (∀ c ∈ r, c ≠ '}') →
    s.head? ≠ some '}' →
    substChars σ (r ++ '}' :: s) = r ++ '}' :: substChars σ s ∧
      namesOf (r ++ '}' :: s) = namesOf s := by
  intro r
  induction r with
  | nil =>
    intro s _ _
    constructor
    · exact substChars_cons_no σ (by rintro ⟨hc, -⟩; exact absurd hc (by decide))
    · exact namesOf_cons_no (by rintro ⟨hc, -⟩; exact absurd hc (by decide))
  | cons a r2 ih =>
    intro s hr hs
    have hr2 : ∀ c ∈ r2, c ≠ '}' := fun c hc => hr c (List.mem_cons_of_mem _ hc)
    by_cases hm : a = '{' ∧ (r2 ++ '}' :: s).head? = some '{'
    · obtain ⟨hc, hh⟩ := hm
      subst hc
      rcases r2 with _ | ⟨b, r3⟩
      · simp only [List.nil_append, List.head?_cons, Option.some.injEq] at hh
        exact absurd hh.symm (by decide)
      · simp only [List.cons_append, List.head?_cons, Option.some.injEq] at hh
        subst hh
        have hr3 : ∀ c ∈ r3, c ≠ '}' := fun c hc =>
          hr2 c (List.mem_cons_of_mem _ hc)
        have hnone : splitContent (r3 ++ '}' :: s) = none := splitContent_across hr3 hs
        obtain ⟨ihE, ihN⟩ := ih s hr2 hs
        constructor
        · rw [List.cons_append, List.cons_append, substChars_two_none σ hnone,
            ← List.cons_append, ihE]
          rfl
        · rw [List.cons_append, List.cons_append, namesOf_two_none hnone,
            ← List.cons_append, ihN]
    · obtain ⟨ihE, ihN⟩ := ih s hr2 hs
      constructor
      · rw [List.cons_append, substChars_cons_no σ hm, ihE]
        rfl
      · rw [List.cons_append, namesOf_cons_no hm, ihN]

/-- When every matched name misses the scope, the scan output never starts
with a closing brace unless the input did. -/
theorem substChars_head_ne_rb {σ : Scope} {u : List Char}
    (habs : ∀ n ∈ namesOf u, lookupScope σ n = none)
    (hu : u.head? ≠ some '}') : (substChars σ u).head? ≠ some '}' := by
  rcases u with _ | ⟨c, u'⟩
  · intro hcon; cases hcon
  · have hc : c ≠ '}' := by
      intro hcon; subst hcon; exact hu rfl
    by_cases hm : c = '{' ∧ u'.head? = some '{'
    · obtain ⟨hceq, hh⟩ := hm
      subst hceq
      rcases u' with _ | ⟨c2, t⟩
      · cases hh
      · simp only [List.head?_cons, Option.some.injEq] at hh
        subst hh
        rcases hs : splitContent t with _ | ⟨ct, rest⟩
        · rw [substChars_two_none σ hs]
          intro hcon
          simp only [List.head?_cons, Option.some.injEq] at hcon
          exact absurd hcon (by decide)
        · rw [substChars_two_some σ hs]
          have hlook : lookupScope σ (stripChars ct) = none := by
            apply habs
            rw [namesOf_two_some hs]
            simp
          simp only [replaceVar, hlook]
          intro hcon
          simp only [List.cons_append, List.head?_cons, Option.some.injEq] at hcon
          exact absurd hcon (by decide)
    · rw [substChars_cons_no σ hm]
      intro hcon
      simp only [List.head?_cons, Option.some.injEq] at hcon
      exact hc hcon

/-- The absence of a placeholder match is preserved by substitution when all
matched names miss the scope. -/
theorem splitContent_subst_none {σ : Scope} {w : List Char}
    (habs : ∀ n ∈ namesOf w, lookupScope σ n = none)
    (h : splitContent w = none) : splitContent (substChars σ w) = none := by
  rcases hdw : w.dropWhile notRB with _ | ⟨d0, dr⟩
  · have hw : ∀ c ∈ w, c ≠ '}' := by
      intro c hc
      have hsplit := List.takeWhile_append_dropWhile notRB w
      rw [hdw, List.append_nil] at hsplit
      rw [← hsplit] at hc
      exact notRB_eq_true.mp (List.mem_takeWhile_imp hc)
    rw [substChars_no_rb σ w hw]
    exact h
  · have hd0 : d0 = '}' := by
      have hfalse := dw_head_false (p := notRB) (l := w) (a := d0) (by rw [hdw]; rfl)
      simpa [notRB] using hfalse
    subst hd0
    rcases ht : w.takeWhile notRB with _ | ⟨t0, tr⟩
    · have hw : w = '}' :: dr := by
        rw [← List.takeWhile_append_dropWhile notRB w, ht, hdw]
        rfl
      rw [hw]
      rw [substChars_cons_no σ (by rintro ⟨hc, -⟩; exact absurd hc (by decide))]
      exact splitContent_rb _
    · have htt : ∀ c ∈ t0 :: tr, c ≠ '}' := by
        intro c hc
        rw [← ht] at hc
        exact notRB_eq_true.mp (List.mem_takeWhile_imp hc)
      have hw : w = (t0 :: tr) ++ '}' :: dr := by
        rw [← List.takeWhile_append_dropWhile notRB w, ht, hdw]
      have hdr : dr.head? ≠ some '}' := by
        intro hcon
        rcases dr with _ | ⟨e, dr'⟩
        · cases hcon
        · simp only [List.head?_cons, Option.some.injEq] at hcon
          subst hcon
          rw [hw] at h
          rw [splitContent_intro (by simp) htt] at h
          cases h
      obtain ⟨hE, hN⟩ := substChars_across_rb σ (t0 :: tr) dr htt hdr
      rw [hw, hE]
      apply splitContent_across htt
      apply substChars_head_ne_rb
      · intro n hn
        apply habs
        rw [hw, hN]
        exact hn
      · exact hdr

/-- Re-scanning a rewrapped unresolved placeholder reproduces it and passes on
to the remainder. -/
theorem substChars_wrapped {σ : Scope} {n : List Char} (t : List Char)
    (hnb : ∀ c ∈ n, c ≠ '}') (hst : stripChars n = n)
    (habs : lookupScope σ n = none) :
    substChars σ ('{' :: '{' :: (n ++ '}' :: '}' :: t)) =
      '{' :: '{' :: (n ++ '}' :: '}' :: substChars σ t) := by
  rcases n with _ | ⟨a, n'⟩
  · simp only [List.nil_append]
    rw [substChars_two_none σ (splitContent_rb ('}' :: t))]
    rw [substChars_cons_no σ (by
      rintro ⟨-, hh⟩
      simp only [List.head?_cons, Option.some.injEq] at hh
      exact absurd hh.symm (by decide))]
    rw [substChars_cons_no σ (by rintro ⟨hc, -⟩; exact absurd hc (by decide))]
    rw [substChars_cons_no σ (by rintro ⟨hc, -⟩; exact absurd hc (by decide))]
  · rw [substChars_two_some σ (splitContent_intro (by simp) hnb)]
    simp only [replaceVar, hst, habs]
    simp [List.append_assoc]

/-- A prefix without opening braces passes through the scan verbatim. -/
theorem substChars_append_pre (σ : Scope) :
    ∀ pre x, (∀ c ∈ pre, c ≠ '{') → substChars σ (pre ++ x) = pre ++ substChars σ x := by
  intro pre
  induction pre with
  | nil => intro x _; rfl
  | cons c pre' ih =>
    intro x h
    rw [List.cons_append, substChars_cons_no σ (by
      rintro ⟨hc, -⟩
      exact h c (by simp) hc)]
    rw [ih x (fun d hd => h d (List.mem_cons_of_mem _ hd))]
    rfl

/-- Bounded-length version of the idempotency of substitution on texts whose
placeholders all name identifiers absent from the scope. -/
theorem substChars_idem_aux (σ : Scope) :
    ∀ N cs, List.length cs ≤ N →
      (∀ n ∈ namesOf cs, lookupScope σ n = none) →
      substChars σ (substChars σ cs) = substChars σ cs := by
  intro N
  induction N with
  | zero =>
    intro cs hle _
    have : cs = [] := List.eq_nil_of_length_eq_zero (Nat.le_zero.mp hle)
    subst this; rfl
  | succ N ih =>
    intro cs hle habs
    rcases cs with _ | ⟨c, cs'⟩
    · rfl
    · simp only [List.length_cons] at hle
      by_cases hc : c = '{'
      · subst hc
        rcases cs' with _ | ⟨c2, cs''⟩
        · rfl
        · simp only [List.length_cons] at hle
          by_cases hc2 : c2 = '{'
          · subst hc2
            cases hsp : splitContent cs'' with
            | some p =>
              obtain ⟨ct, rest'⟩ := p
              have hlen := splitContent_length hsp
              have hlook : lookupScope σ (stripChars ct) = none := by
                apply habs
                rw [namesOf_two_some hsp]
                simp
              have habs' : ∀ n ∈ namesOf rest', lookupScope σ n = none := by
                intro n hn
                apply habs
                rw [namesOf_two_some hsp]
                simp [hn]
              have hnb : ∀ c ∈ stripChars ct, c ≠ '}' := by
                intro c hc
                exact (splitContent_elim hsp).2.2 c (stripChars_subset hc)
              have hrepl : replaceVar σ ct = '{' :: '{' :: (stripChars ct ++ ['}', '}']) := by
                simp only [replaceVar, hlook]
              have hform : ('{' :: '{' :: (stripChars ct ++ ['}', '}'])) ++ substChars σ rest' =
                  '{' :: '{' :: (stripChars ct ++ '}' :: '}' :: substChars σ rest') := by
                simp [List.append_assoc]
              rw [substChars_two_some σ hsp, hrepl, hform,
                substChars_wrapped (substChars σ rest') hnb (stripChars_idem ct) hlook,
                ih rest' (by omega) habs']
            | none =>
              have habs'' : ∀ n ∈ namesOf cs'', lookupScope σ n = none := by
                intro n hn
                apply habs
                rw [namesOf_two_none hsp, namesOf_push hsp]
                exact hn
              have hnone2 : splitContent (substChars σ cs'') = none :=
                splitContent_subst_none habs'' hsp
              rw [substChars_two_none σ hsp, substChars_push hsp,
                substChars_two_none σ hnone2, substChars_push hnone2,
                ih cs'' (by omega) habs'']
          · have hm : ∀ x : List Char, ¬('{' = '{' ∧ (c2 :: x).head? = some '{') := by
              intro x
              rintro ⟨-, hh⟩
              simp only [List.head?_cons, Option.some.injEq] at hh
              exact hc2 hh
            have habs'' : ∀ n ∈ namesOf cs'', lookupScope σ n = none := by
              intro n hn
              apply habs
              rw [namesOf_cons_no (hm cs''), namesOf_cons_no (fun hcon => hc2 hcon.1)]
              exact hn
            rw [substChars_cons_no σ (hm cs''),
              substChars_cons_no σ (fun hcon => hc2 hcon.1),
              substChars_cons_no σ (hm (substChars σ cs'')),
              substChars_cons_no σ (fun hcon => hc2 hcon.1),
              ih cs'' (by omega) habs'']
      · have habs' : ∀ n ∈ namesOf cs', lookupScope σ n = none := by
          intro n hn
          apply habs
          rw [namesOf_cons_no (fun hcon => hc hcon.1)]
          exact hn
        rw [substChars_cons_no σ (fun hcon => hc hcon.1),
          substChars_cons_no σ (fun hcon => hc hcon.1),
          ih cs' (by omega) habs']

/-- General behaviour of one placeholder occurrence: whatever precedes it
without opening braces is copied, the stripped identifier is looked up, a hit
is replaced by the value, a miss by the rewrapped stripped identifier, and
scanning resumes after the match. -/
theorem substChars_placeholder (σ : Scope) (pre w1 n w2 post : List Char)
    (hpre : ∀ c ∈ pre, c ≠ '{')
    (hw1 : ∀ c ∈ w1, isSpc c = true) (hw2 : ∀ c ∈ w2, isSpc c = true)
    (hn : n ≠ []) (hnb : ∀ c ∈ n, c ≠ '}') (hst : stripChars n = n) :
    substChars σ (pre ++ '{' :: '{' :: ((w1 ++ n ++ w2) ++ '}' :: '}' :: post)) =
      pre ++ (match lookupScope σ n with
              | some v => v
              | none => '{' :: '{' :: (n ++ ['}', '}'])) ++ substChars σ post := by
  rw [substChars_append_pre σ pre _ hpre]
  have hct : ∀ c ∈ w1 ++ n ++ w2, c ≠ '}' := by
    intro c hc
    rcases List.mem_append.mp hc with hc | hc
    · rcases List.mem_append.mp hc with hc | hc
      · exact isSpc_ne_rb (hw1 c hc)
      · exact hnb c hc
    · exact isSpc_ne_rb (hw2 c hc)
  have hctne : w1 ++ n ++ w2 ≠ [] := by
    intro hcon
    rcases List.append_eq_nil.mp hcon with ⟨hcon1, -⟩
    rcases List.append_eq_nil.mp hcon1 with ⟨-, hcon2⟩
    exact hn hcon2
  rw [substChars_two_some σ (splitContent_intro hctne hct)]
  simp only [replaceVar, stripChars_pad hw1 hw2 hst]
  rw [List.append_assoc]

/-! ## Lemmas about the scope dictionary -/

theorem lookupScope_insert_self (σ : Scope) (k v : List Char) :
    lookupScope (insertScope σ k v) k = some v := by
  induction σ with
  | nil => simp [insertScope, lookupScope]
  | cons p t ih =>
    obtain ⟨k', v'⟩ := p
    unfold insertScope
    by_cases h : k' = k
    · rw [if_pos h]
      simp [lookupScope]
    · rw [if_neg h]
      unfold lookupScope
      rw [if_neg h]
      exact ih

theorem lookupScope_insert_isSome {σ : Scope} {k' : List Char} (k v : List Char)
    (h : (lookupScope σ k').isSome = true) :
    (lookupScope (insertScope σ k v) k').isSome = true := by
  induction σ with
  | nil => simp [lookupScope] at h
  | cons p t ih =>
    obtain ⟨k0, v0⟩ := p
    unfold insertScope
    by_cases h0 : k0 = k
    · rw [if_pos h0]
      unfold lookupScope at h ⊢
      by_cases h1 : k0 = k'
      · rw [← h0, if_pos h1]
        simp
      · rw [if_neg h1] at h
        rw [if_neg (by rw [← h0]; exact h1)]
        exact h
    · rw [if_neg h0]
      unfold lookupScope at h ⊢
      by_cases h1 : k0 = k'
      · rw [if_pos h1] at h ⊢
        simp
      · rw [if_neg h1] at h ⊢
        exact ih h

/-! ## Lemmas about the element processor -/

theorem processElement_role (fs : Fs) (σ : Scope) (pd : ParsedData)
    (a : List (List Char × List Char)) (t : Option (List Char)) (ch : List Xml) :
    ((processElement fs (σ, pd) (Xml.elem ("role".toList) a t ch)).2).role =
      stripChars (substChars σ (textOr t)) := by
  have hlow : lowerStr ("role".toList) = "role".toList := by decide
  simp only [processElement, Xml.tag, Xml.text, Xml.attrs, Xml.children]
  rw [hlow, if_pos rfl]

theorem processElement_task (fs : Fs) (σ : Scope) (pd : ParsedData)
    (a : List (List Char × List Char)) (t : Option (List Char)) (ch : List Xml) :
    ((processElement fs (σ, pd) (Xml.elem ("task".toList) a t ch)).2).task =
      stripChars (substChars σ (textOr t)) := by
  have hlow : lowerStr ("task".toList) = "task".toList := by decide
  simp only [processElement, Xml.tag, Xml.text, Xml.attrs, Xml.children]
  rw [hlow, if_neg (by decide), if_pos rfl]

theorem processElement_output_format (fs : Fs) (σ : Scope) (pd : ParsedData)
    (a : List (List Char × List Char)) (t : Option (List Char)) (ch : List Xml) :
    ((processElement fs (σ, pd) (Xml.elem ("output-format".toList) a t ch)).2).output_format =
      stripChars (substChars σ (textOr t)) := by
  have hlow : lowerStr ("output-format".toList) = "output-format".toList := by decide
  simp only [processElement, Xml.tag, Xml.text, Xml.attrs, Xml.children]
  rw [hlow, if_neg (by decide), if_neg (by decide), if_pos (Or.inl rfl)]

theorem processElement_scope_mono (fs : Fs) (σ : Scope) (pd : ParsedData) (e : Xml)
    (k : List Char) (h : (lookupScope σ k).isSome = true) :
    (lookupScope ((processElement fs (σ, pd) e).1) k).isSome = true := by
  rcases e with ⟨tg, a, tx, ch⟩
  unfold processElement
  simp only [Xml.tag, Xml.text, Xml.attrs, Xml.children]
  split_ifs <;> try exact h
  rcases hnm : attrGetOpt a ("name".toList) with _ | nm
  · simpa [hnm] using h
  · simp only [hnm]
    exact lookupScope_insert_isSome _ _ h

theorem processElements_scope_mono (fs : Fs) :
    ∀ (es : List Xml) (σ : Scope) (pd : ParsedData) (k : List Char),
      (lookupScope σ k).isSome = true →
      (lookupScope ((processElements fs (σ, pd) es).1) k).isSome = true := by
  intro es
  induction es with
  | nil => intro σ pd k h; exact h
  | cons e es' ih =>
    intro σ pd k h
    unfold processElements
    rw [List.foldl_cons]
    have h1 := processElement_scope_mono fs σ pd e k h
    have := ih (processElement fs (σ, pd) e).1 (processElement fs (σ, pd) e).2 k h1
    unfold processElements at this
    simpa using this

theorem processElement_let (fs : Fs) (σ : Scope) (pd : ParsedData) (t : Option (List Char))
    (ch : List Xml) (nm v : List Char) :
    processElement fs (σ, pd)
        (Xml.elem ("let".toList) [("name".toList, nm), ("value".toList, v)] t ch) =
      (insertScope σ nm (substChars σ v),
        { pd with raw_elements := pd.raw_elements ++
            [{ tag := "let".toList, text := substChars σ (textOr t),
               attributes := [("name".toList, nm), ("value".toList, v)],
               childTags := ch.map Xml.tag }] }) := by
  have hlow : lowerStr ("let".toList) = "let".toList := by decide
  have hname : attrGetOpt [("name".toList, nm), ("value".toList, v)] ("name".toList) =
      some nm := by
    simp [attrGetOpt, lookupScope]
  have hval : ∀ d, attrGet [("name".toList, nm), ("value".toList, v)] ("value".toList) d = v := by
    intro d
    simp [attrGet, lookupScope]
  simp only [processElement, Xml.tag, Xml.text, Xml.attrs, Xml.children]
  rw [hlow, if_neg (by decide), if_neg (by decide), if_neg (by decide), if_neg (by decide),
    if_neg (by decide), if_neg (by decide), if_neg (by decide), if_pos rfl]
  rw [hname]
  rw [hval]

theorem processExample_io (σ : Scope) (a a1 a2 : List (List Char × List Char))
    (t u : List Char) :
    processExample σ (Xml.elem ("example".toList) a none
        [Xml.elem ("input".toList) a1 (some t) [],
         Xml.elem ("output".toList) a2 (some u) []]) =
      (if substChars σ (stripChars t) = [] ∧ substChars σ (stripChars u) = [] then none
       else some ⟨substChars σ (stripChars t), substChars σ (stripChars u)⟩) := by
  have hlow1 : lowerStr ("input".toList) = "input".toList := by decide
  have hlow2 : lowerStr ("output".toList) = "output".toList := by decide
  simp only [processExample, Xml.children, List.foldl_cons, List.foldl_nil,
    Xml.tag, Xml.text, textOr]
  rw [hlow1, hlow2]
  simp [truthyText]

theorem processDocument_inline (fs : Fs) (t : Option (List Char)) (ch : List Xml) :
    processDocument fs (Xml.elem ("document".toList) [] t ch) =
      { src := [], title := "Document".toList, content := textOr t } := by
  unfold processDocument
  simp [attrGet, lookupScope, Xml.attrs, Xml.text]

theorem processTable_headers_verbatim (fs : Fs) (h : List Char) :
    (processTable fs (Xml.elem ("table".toList) [] none
        [Xml.elem ("thead".toList) [] none
          [Xml.elem ("tr".toList) [] none
            [Xml.elem ("th".toList) [] (some h) []]]])).headers = [h] := by
  unfold processTable
  simp only [attrGet, lookupScope, Xml.attrs]
  rw [if_neg (by simp)]
  simp [findChild, findAll, Xml.children, Xml.tag, Xml.text, textOr]

theorem processTable_rows_verbatim (fs : Fs) (r : List Char) :
    (processTable fs (Xml.elem ("table".toList) [] none
        [Xml.elem ("tbody".toList) [] none
          [Xml.elem ("tr".toList) [] none
            [Xml.elem ("td".toList) [] (some r) []]]])).rows = [[r]] := by
  unfold processTable
  simp only [attrGet, lookupScope, Xml.attrs]
  rw [if_neg (by simp)]
  simp [findChild, findAll, Xml.children, Xml.tag, Xml.text, textOr]

/-- A text that is exactly one placeholder is resolved by a single lookup of
the (already stripped) identifier. -/
theorem substChars_single_ph (σ : Scope) (n : List Char) (hn : n ≠ [])
    (hnb : ∀ c ∈ n, c ≠ '}') (hst : stripChars n = n) :
    substChars σ ('{' :: '{' :: (n ++ ['}', '}'])) =
      (match lookupScope σ n with
       | some v => v
       | none => '{' :: '{' :: (n ++ ['}', '}'])) := by
  have h := substChars_placeholder σ [] [] n [] [] (by simp) (by simp) (by simp) hn hnb hst
  simpa [substChars_nil] using h

theorem intercalate_pair (s a b : List Char) :
    List.intercalate s [a, b] = a ++ (s ++ b) := by
  simp [List.intercalate, List.intersperse]

theorem intercalate_triple (s a b c : List Char) :
    List.intercalate s [a, b, c] = a ++ (s ++ (b ++ (s ++ c))) := by
  simp [List.intercalate, List.intersperse]

/-! ## Claim theorems -/

/-- C8: for every scope and every text whose placeholders all name
identifiers absent from the scope, substitution is idempotent: applying
`_substitute_variables` twice yields the same output as applying it once. -/
theorem claim8_subst_idempotent (σ : Scope) (cs : List Char)
    (habs : ∀ n ∈ namesOf cs, lookupScope σ n = none) :
    substChars σ (substChars σ cs) = substChars σ cs :=
  substChars_idem_aux σ cs.length cs le_rfl habs

/-- Witness for C8 at the concrete scope `x -> 5` and text `a \x7b\x7b y \x7d\x7d b`. -/
theorem claim8_subst_idempotent_witness :
    (∀ n ∈ namesOf ("a \x7b\x7b y \x7d\x7d b".toList), lookupScope xScope n = none) ∧
      substChars xScope (substChars xScope ("a \x7b\x7b y \x7d\x7d b".toList)) =
        substChars xScope ("a \x7b\x7b y \x7d\x7d b".toList) :=
  ⟨by decide, claim8_subst_idempotent xScope ("a \x7b\x7b y \x7d\x7d b".toList) (by decide)⟩

/-- C1 (counterexample): with scope `x -> 5` and `y` absent,
`substitute("a \x7b\x7b y \x7d\x7d b")` is `"a \x7b\x7by\x7d\x7d b"` — the
unresolved match is NOT replaced by itself unchanged: its inner whitespace is
normalized away. -/
theorem claim1_counterexample :
    substChars xScope ("a \x7b\x7b y \x7d\x7d b".toList) = "a \x7b\x7by\x7d\x7d b".toList ∧
      substChars xScope ("a \x7b\x7b y \x7d\x7d b".toList) ≠ "a \x7b\x7b y \x7d\x7d b".toList := by
  decide

/-- C1 (amended): substitution replaces each placeholder whose identifier is
present in the scope by the scope's value, and each placeholder whose
identifier is absent by the placeholder rebuilt from the whitespace-stripped
identifier (`\x7b\x7bname\x7d\x7d`); in particular
`substitute("a \x7b\x7bx\x7d\x7d b") = "a 5 b"` with `x -> 5`, and
`substitute("a \x7b\x7b y \x7d\x7d b") = "a \x7b\x7by\x7d\x7d b"` with `y` absent. -/
theorem claim1_substitution_behavior :
    (∀ (σ : Scope) (pre w1 n w2 post : List Char),
      (∀ c ∈ pre, c ≠ '{') → (∀ c ∈ w1, isSpc c = true) → (∀ c ∈ w2, isSpc c = true) →
      n ≠ [] → (∀ c ∈ n, c ≠ '}') → stripChars n = n →
      substChars σ (pre ++ '{' :: '{' :: ((w1 ++ n ++ w2) ++ '}' :: '}' :: post)) =
        pre ++ (match lookupScope σ n with
                | some v => v
                | none => '{' :: '{' :: (n ++ ['}', '}'])) ++ substChars σ post) ∧
    substChars xScope ("a \x7b\x7bx\x7d\x7d b".toList) = "a 5 b".toList ∧
    substChars xScope ("a \x7b\x7b y \x7d\x7d b".toList) = "a \x7b\x7by\x7d\x7d b".toList :=
  ⟨substChars_placeholder, by decide, by decide⟩

/-- Witness for C1 (amended) at scope `x -> 5`, prefix `a `, name `y` padded
with one space on each side, suffix ` b`. -/
theorem claim1_substitution_behavior_witness :
    ((∀ c ∈ "a ".toList, c ≠ '{') ∧ (∀ c ∈ [' '], isSpc c = true) ∧
      "y".toList ≠ [] ∧ (∀ c ∈ "y".toList, c ≠ '}') ∧ stripChars ("y".toList) = "y".toList) ∧
    substChars xScope ("a ".toList ++ '{' :: '{' ::
        (([' '] ++ "y".toList ++ [' ']) ++ '}' :: '}' :: " b".toList)) =
      "a ".toList ++ (match lookupScope xScope ("y".toList) with
                      | some v => v
                      | none => '{' :: '{' :: ("y".toList ++ ['}', '}'])) ++
        substChars xScope (" b".toList) :=
  ⟨by decide, claim1_substitution_behavior.1 xScope ("a ".toList) [' '] ("y".toList) [' ']
    (" b".toList) (by decide) (by decide) (by decide) (by decide) (by decide) (by decide)⟩

/-- C3: evaluating `_preprocess_poml` on markup holding a self-closing tag
that carries an attribute shows the rewrite duplicating the attribute into
the closing tag, so the output is not well-formed markup: the closing tag
does not carry only the tag name. -/
theorem claim3_selfclose_attr_eval :
    preprocessPoml ("<poml><img src=\"a\"/></poml>".toList) =
      "<poml><img src=\"a\"></img src=\"a\"></poml>".toList := by
  decide

/-- C4: `_load_excel_file` returns the capability-unavailable string for
EVERY dependency configuration, because no import ever registers an
`openpyxl` key in `DEPENDENCIES_AVAILABLE`, so the guard can never pass. -/
theorem claim4_excel_always_unavailable (cfg : Deps) (pandasOut : List Char)
    (sheetRows : List (List (List Char))) :
    loadExcelFile cfg pandasOut sheetRows = excelUnavailableMsg := by
  have h : depsGet cfg "openpyxl" = false := rfl
  unfold loadExcelFile
  rw [h]
  rfl

/-- C6: for every malformed variables JSON (modelled by the decode error from
`json.loads`), the pipeline entry point returns the JSON-error prompt (which
contains the text `Error`) and metadata with a nonempty error field,
independently of the markup, the parser outcome, the mode and the length cap
— no markup parsing is attempted. -/
theorem claim6_bad_json_short_circuit (cfg : Deps) (fs : Fs) (e : List Char)
    (off : Except (List Char) ParsedData) (xmlRes : Except (List Char) Xml)
    (mode : List Char) (maxLen : Nat) :
    processPomlRun cfg fs (.error e) off xmlRes mode maxLen =
      ("JSON Variables Error: ".toList ++ ("Invalid JSON: ".toList ++ e) ++
         "\n\nFallback prompt active.".toList,
       { error := some ("Invalid JSON: ".toList ++ e), mode := mode }) ∧
    (∃ pre post,
      "JSON Variables Error: ".toList ++ ("Invalid JSON: ".toList ++ e) ++
          "\n\nFallback prompt active.".toList = pre ++ "Error".toList ++ post) ∧
    "Invalid JSON: ".toList ++ e ≠ [] := by
  refine ⟨rfl, ⟨"JSON Variables ".toList,
    ": ".toList ++ ("Invalid JSON: ".toList ++ e) ++ "\n\nFallback prompt active.".toList, ?_⟩,
    by simp⟩
  have hsplit : "JSON Variables Error: ".toList =
      "JSON Variables ".toList ++ ("Error".toList ++ ": ".toList) := by decide
  rw [hsplit]
  simp [List.append_assoc]

/-- C2 (counterexample): parsing a document whose table header cell, table
row cell and document inline text hold `\x7b\x7bx\x7d\x7d` under the scope
`x -> 5` stores all three fragments unsubstituted in the Prompt Model even
though substitution would resolve them to `5`: the substitution-applied
invariant fails for table headers, table rows and document inline content. -/
theorem claim2_counterexample :
    ((parseFallback fsNone (.ok pomlRootPh) xScope).2.tables.map TableInfo.headers =
      [["\x7b\x7bx\x7d\x7d".toList]]) ∧
    ((parseFallback fsNone (.ok pomlRootPh) xScope).2.tables.map TableInfo.rows =
      [[["\x7b\x7bx\x7d\x7d".toList]]]) ∧
    ((parseFallback fsNone (.ok pomlRootPh) xScope).2.documents.map DocInfo.content =
      ["\x7b\x7bx\x7d\x7d".toList]) ∧
    substChars xScope ("\x7b\x7bx\x7d\x7d".toList) = "5".toList := by
  decide

/-- C2 (amended): variable substitution is applied before storage to the
role, task and output-format texts and to example input/output texts, while
table header cells, table row cells and document inline content are stored
verbatim, without substitution. -/
theorem claim2_substitution_coverage :
    (∀ (fs : Fs) (σ : Scope) (pd : ParsedData) a t ch,
      ((processElement fs (σ, pd) (Xml.elem ("role".toList) a t ch)).2).role =
        stripChars (substChars σ (textOr t))) ∧
    (∀ (fs : Fs) (σ : Scope) (pd : ParsedData) a t ch,
      ((processElement fs (σ, pd) (Xml.elem ("task".toList) a t ch)).2).task =
        stripChars (substChars σ (textOr t))) ∧
    (∀ (fs : Fs) (σ : Scope) (pd : ParsedData) a t ch,
      ((processElement fs (σ, pd) (Xml.elem ("output-format".toList) a t ch)).2).output_format =
        stripChars (substChars σ (textOr t))) ∧
    (∀ (σ : Scope) (a a1 a2 : List (List Char × List Char)) (t u : List Char),
      processExample σ (Xml.elem ("example".toList) a none
          [Xml.elem ("input".toList) a1 (some t) [],
           Xml.elem ("output".toList) a2 (some u) []]) =
        (if substChars σ (stripChars t) = [] ∧ substChars σ (stripChars u) = [] then none
         else some ⟨substChars σ (stripChars t), substChars σ (stripChars u)⟩)) ∧
    (∀ (fs : Fs) (t : Option (List Char)) (ch : List Xml),
      processDocument fs (Xml.elem ("document".toList) [] t ch) =
        { src := [], title := "Document".toList, content := textOr t }) ∧
    (∀ (fs : Fs) (h : List Char),
      (processTable fs (Xml.elem ("table".toList) [] none
          [Xml.elem ("thead".toList) [] none
            [Xml.elem ("tr".toList) [] none
              [Xml.elem ("th".toList) [] (some h) []]]])).headers = [h]) ∧
    (∀ (fs : Fs) (r : List Char),
      (processTable fs (Xml.elem ("table".toList) [] none
          [Xml.elem ("tbody".toList) [] none
            [Xml.elem ("tr".toList) [] none
              [Xml.elem ("td".toList) [] (some r) []]]])).rows = [[r]]) :=
  ⟨processElement_role, processElement_task, processElement_output_format,
   processExample_io, processDocument_inline, processTable_headers_verbatim,
   processTable_rows_verbatim⟩

/-- C5: when the official SDK is unavailable the built-in parser turns a
markup parse error into the generic fallback prompt model (role `Assistant`,
task `Help the user`, an error field), and the pipeline entry point then
returns the fallback prompt and metadata carrying that error; everything is a
total function of the inputs, so no exception reaches the caller. -/
theorem claim5_parse_error_fallback (cfg : Deps) (fs : Fs) (ctx : Scope)
    (off : Except (List Char) ParsedData) (e mode : List Char) (maxLen : Nat)
    (h : cfg.poml = false ∨ ∃ oe, off = .error oe) :
    parseFallback fs (.error e) ctx = (ctx, errorParsedData e) ∧
    (errorParsedData e).role = "Assistant".toList ∧
    (errorParsedData e).task = "Help the user".toList ∧
    (errorParsedData e).error = some ("POML parsing error: ".toList ++ e) ∧
    processPomlRun cfg fs (.ok ctx) off (.error e) mode maxLen =
      ("POML Error: ".toList ++ ("POML parsing error: ".toList ++ e) ++
         "\n\nFallback: ".toList ++ "Assistant".toList ++ " - ".toList ++
         "Help the user".toList,
       { error := some ("POML parsing error: ".toList ++ e), mode := mode,
         dependencies := some cfg }) := by
  refine ⟨rfl, rfl, rfl, rfl, ?_⟩
  unfold processPomlRun validateJsonContext parsePoml
  rcases h with h | ⟨oe, h⟩
  · rw [h]
    simp [parseFallback, errorParsedData]
  · subst h
    by_cases hp : cfg.poml
    · simp [hp, parseFallback, errorParsedData]
    · simp [hp, parseFallback, errorParsedData]

/-- Witness for C5 with every optional dependency unavailable. -/
theorem claim5_parse_error_fallback_witness :
    depsNone.poml = false ∧
    (parseFallback fsNone (.error ("boom".toList)) [] = ([], errorParsedData ("boom".toList)) ∧
     (errorParsedData ("boom".toList)).role = "Assistant".toList ∧
     (errorParsedData ("boom".toList)).task = "Help the user".toList ∧
     (errorParsedData ("boom".toList)).error =
       some ("POML parsing error: ".toList ++ "boom".toList) ∧
     processPomlRun depsNone fsNone (.ok []) (.error []) (.error ("boom".toList))
         ("standard".toList) 0 =
       ("POML Error: ".toList ++ ("POML parsing error: ".toList ++ "boom".toList) ++
          "\n\nFallback: ".toList ++ "Assistant".toList ++ " - ".toList ++
          "Help the user".toList,
        { error := some ("POML parsing error: ".toList ++ "boom".toList),
          mode := "standard".toList, dependencies := some depsNone })) :=
  ⟨rfl, claim5_parse_error_fallback depsNone fsNone [] (.error []) ("boom".toList)
    ("standard".toList) 0 (Or.inl rfl)⟩

/-- C7: a `<table>` without `src`, a two-column header and one data row
produces exactly three lines: the pipe-joined header cells, a dash line of the
header line's length, and the pipe-joined row cells. -/
theorem claim7_table_content (fs : Fs) (ttl h1 h2 c1 c2 : List Char) :
    processTable fs (Xml.elem ("table".toList) [("title".toList, ttl)] none
        [Xml.elem ("thead".toList) [] none
          [Xml.elem ("tr".toList) [] none
            [Xml.elem ("th".toList) [] (some h1) [],
             Xml.elem ("th".toList) [] (some h2) []]],
         Xml.elem ("tbody".toList) [] none
          [Xml.elem ("tr".toList) [] none
            [Xml.elem ("td".toList) [] (some c1) [],
             Xml.elem ("td".toList) [] (some c2) []]]]) =
      { title := ttl, src := [],
        headers := [h1, h2], rows := [[c1, c2]],
        content := (h1 ++ (" | ".toList ++ h2)) ++
          ('\n' :: (List.replicate (h1 ++ (" | ".toList ++ h2)).length '-' ++
            ('\n' :: (c1 ++ (" | ".toList ++ c2))))) } := by
  unfold processTable
  simp [attrGet, lookupScope, findChild, findAll, Xml.attrs, Xml.children,
    Xml.tag, Xml.text, textOr, intercalate_pair, intercalate_triple]

/-- C9: during one parse the variable scope only grows (every key visible
before processing an element list is still visible after), and a `let`
binding takes effect exactly for elements processed after it: a `<task>`
reference following `<let name=nm value=v/>` resolves to the bound value,
while the same reference preceding the `let` stores the unresolved
placeholder. -/
theorem claim9_scope_growth_and_ordering :
    (∀ (fs : Fs) (es : List Xml) (σ : Scope) (pd : ParsedData) (k : List Char),
      (lookupScope σ k).isSome = true →
      (lookupScope ((processElements fs (σ, pd) es).1) k).isSome = true) ∧
    (∀ (fs : Fs) (σ : Scope) (pd : ParsedData) (nm v : List Char),
      nm ≠ [] → (∀ c ∈ nm, c ≠ '}') → stripChars nm = nm →
      ((processElements fs (σ, pd) [letElem nm v, taskRefElem nm]).2).task =
        stripChars (substChars σ v)) ∧
    (∀ (fs : Fs) (σ : Scope) (pd : ParsedData) (nm v : List Char),
      nm ≠ [] → (∀ c ∈ nm, c ≠ '}') → stripChars nm = nm →
      lookupScope σ nm = none →
      ((processElements fs (σ, pd) [taskRefElem nm, letElem nm v]).2).task =
        '{' :: '{' :: (nm ++ ['}', '}'])) := by
  refine ⟨fun fs es σ pd k h => processElements_scope_mono fs es σ pd k h, ?_, ?_⟩
  · intro fs σ pd nm v hn hnb hst
    unfold processElements
    rw [List.foldl_cons, List.foldl_cons, List.foldl_nil]
    unfold letElem
    rw [processElement_let]
    unfold taskRefElem
    rw [processElement_task]
    simp only [textOr]
    rw [substChars_single_ph _ nm hn hnb hst, lookupScope_insert_self]
  · intro fs σ pd nm v hn hnb hst habs
    unfold processElements
    rw [List.foldl_cons, List.foldl_cons, List.foldl_nil]
    unfold taskRefElem
    have htask : (processElement fs (σ, pd)
        (Xml.elem ("task".toList) [] (some ('{' :: '{' :: (nm ++ ['}', '}']))) [])).2.task =
        '{' :: '{' :: (nm ++ ['}', '}']) := by
      rw [processElement_task]
      simp only [textOr]
      rw [substChars_single_ph _ nm hn hnb hst, habs]
      apply stripChars_noop
      · intro a ha
        simp only [List.head?_cons, Option.some.injEq] at ha
        subst ha
        decide
      · intro b hb
        have : ('{' :: '{' :: (nm ++ ['}', '}'])).getLast? = some '}' := by
          rw [show ('{' :: '{' :: (nm ++ ['}', '}'])) =
            ('{' :: '{' :: nm) ++ ['}', '}'] by simp]
          rw [List.getLast?_append]
          rfl
        rw [this] at hb
        injection hb with hb
        subst hb
        decide
    rw [← Prod.mk.eta (p := processElement fs (σ, pd)
      (Xml.elem ("task".toList) [] (some ('{' :: '{' :: (nm ++ ['}', '}']))) []))]
    unfold letElem
    rw [processElement_let]
    exact htask

/-- Witness for C9: growth at scope `x -> 5`, and the two orderings of a
`let n V` binding against a `task` referencing `n`. -/
theorem claim9_scope_growth_and_ordering_witness :
    ((lookupScope xScope ("x".toList)).isSome = true ∧ "n".toList ≠ [] ∧
      (∀ c ∈ "n".toList, c ≠ '}') ∧ stripChars ("n".toList) = "n".toList ∧
      lookupScope [] ("n".toList) = none) ∧
    (lookupScope ((processElements fsNone (xScope, outputOnlyPd)
        [letElem ("n".toList) ("V".toList)]).1) ("x".toList)).isSome = true ∧
    ((processElements fsNone ([], outputOnlyPd)
        [letElem ("n".toList) ("V".toList), taskRefElem ("n".toList)]).2).task =
      stripChars (substChars [] ("V".toList)) ∧
    ((processElements fsNone ([], outputOnlyPd)
        [taskRefElem ("n".toList), letElem ("n".toList) ("V".toList)]).2).task =
      '{' :: '{' :: ("n".toList ++ ['}', '}']) :=
  ⟨by decide,
   claim9_scope_growth_and_ordering.1 fsNone [letElem ("n".toList) ("V".toList)]
     xScope outputOnlyPd ("x".toList) (by decide),
   claim9_scope_growth_and_ordering.2.1 fsNone [] outputOnlyPd ("n".toList) ("V".toList)
     (by decide) (by decide) (by decide),
   claim9_scope_growth_and_ordering.2.2 fsNone [] outputOnlyPd ("n".toList) ("V".toList)
     (by decide) (by decide) (by decide) (by decide)⟩

/-- C10: in optimized style the renderer emits the `Examples:` header part
whenever the examples list is nonempty, while an example with an empty input
contributes no block in any style (the loop is style-independent), so the
rendered output can be exactly an `Examples:` header followed by nothing. -/
theorem claim10_examples_header :
    (∀ pd : ParsedData, pd.examples ≠ [] →
      "Examples:".toList ∈ renderParts pd ("optimized".toList)) ∧
    (∀ (i : Nat) (exs : List ExampleIO), (∀ ex ∈ exs, ex.input = []) →
      exampleParts i exs = []) ∧
    renderPrompt outputOnlyPd ("optimized".toList) = "Examples:".toList := by
  refine ⟨?_, ?_, by decide⟩
  · intro pd h
    unfold renderParts
    apply List.mem_append_left
    apply List.mem_append_left
    apply List.mem_append_left
    apply List.mem_append_left
    apply List.mem_append_right
    rw [if_pos h, if_pos rfl]
    exact List.mem_append_left _ (by simp)
  · intro i exs
    induction exs generalizing i with
    | nil => intro _; rfl
    | cons ex rest ih =>
      intro hall
      have h0 : ex.input = [] := hall ex (by simp)
      unfold exampleParts
      rw [if_neg (by rintro ⟨hc, -⟩; exact hc h0), if_neg (fun hc => hc h0)]
      rw [List.nil_append]
      exact ih (i + 1) (fun e he => hall e (by simp [he]))

/-- Witness for C10 at the output-only example model. -/
theorem claim10_examples_header_witness :
    (outputOnlyPd.examples ≠ [] ∧
      (∀ ex ∈ [({ input := [], output := "z".toList } : ExampleIO)], ex.input = [])) ∧
    "Examples:".toList ∈ renderParts outputOnlyPd ("optimized".toList) ∧
    exampleParts 1 [({ input := [], output := "z".toList } : ExampleIO)] = [] :=
  ⟨by decide,
   claim10_examples_header.1 outputOnlyPd (by decide),
   claim10_examples_header.2.1 1 [{ input := [], output := "z".toList }] (by decide)⟩
